import Mathlib

/-!
Shallow embedding of the DocTrans translation core
(src/translation_service.py, src/app.py, src/pages/2_Translate_Files.py).

Text is modelled as List Char (Python str).  The third-party helpers the
source delegates to are modelled from their library semantics:

* langchain's MarkdownTextSplitter / RecursiveCharacterTextSplitter
  (split_text in translation_service.py builds
  MarkdownTextSplitter(chunk_size=max_tokens, chunk_overlap=100)):
  recursive splitting on the markdown separator list, keep_separator=True,
  is_separator_regex=True, length_function=len, strip_whitespace=True.
* python-frontmatter: a parsed markdown document is a metadata mapping plus
  a body; frontmatter.loads with an empty string yields empty metadata.
* nbformat: a notebook is a metadata mapping plus an ordered cell list; a
  cell has a cell_type, a source, and (for code cells) outputs and an
  execution count.
* pathlib: paths are an absolute flag plus a component list; suffix is the
  final component's extension from its last dot.
-/

namespace DocTrans

/-! ### Python string helpers -/

/-- Python str whitespace predicate used by str.strip, following CPython's
Unicode whitespace table: tab through carriage return (9-13), the
information separators 28-31, space, next line (133), no-break space (160),
ogham space mark, the en-quad..hair-space range (8192-8202), line and
paragraph separators, narrow no-break space, medium mathematical space, and
ideographic space. -/
def pyWhitespace (c : Char) : Bool :=
  (9 ≤ c.toNat && c.toNat ≤ 13) || (28 ≤ c.toNat && c.toNat ≤ 31) ||
  c.toNat = 32 || c.toNat = 133 || c.toNat = 160 || c.toNat = 5760 ||
  (8192 ≤ c.toNat && c.toNat ≤ 8202) || c.toNat = 8232 || c.toNat = 8233 ||
  c.toNat = 8239 || c.toNat = 8287 || c.toNat = 12288

/-- Python str.strip(): drop leading and trailing whitespace. -/
def pyStrip (t : List Char) : List Char :=
  ((t.dropWhile pyWhitespace).reverse.dropWhile pyWhitespace).reverse

/-! ### The langchain markdown separator patterns

Language.MARKDOWN separators, in order: a newline followed by one to six
hash marks and a space (heading); a code-fence close (three backquote
characters and a newline); a newline, three or more stars, and a newline;
the same with dashes; the same with underscores; a blank line (two
newlines); a single newline; a single space; and finally the empty
separator, which splits into single characters. -/

inductive MdSep
  | header
  | fence
  | stars
  | dashes
  | underscores
  | blank
  | newline
  | space
  | empty
deriving DecidableEq, Repr

def backquote : Char := Char.ofNat 96

/-- Number of leading occurrences of a given character. -/
def countLeading (c : Char) : List Char → Nat
  | [] => 0
  | x :: xs => if x = c then countLeading c xs + 1 else 0

/-- Greedy match of one separator pattern at the head of the text, returning
the length of the match.  The quantified patterns (hash marks, horizontal
rules) must consume the entire run of their repeated character, because the
character following a shorter prefix of the run would be that same repeated
character rather than the required closing character. -/
def matchSepAt : MdSep → List Char → Option Nat
  | .header, '\n' :: rest =>
    let h := countLeading '#' rest
    if 1 ≤ h ∧ h ≤ 6 ∧ (rest.drop h).head? = some ' ' then some (h + 2) else none
  | .fence, a :: b :: c :: d :: _ =>
    if a = backquote ∧ b = backquote ∧ c = backquote ∧ d = '\n' then some 4 else none
  | .stars, '\n' :: rest =>
    let k := countLeading '*' rest
    if 3 ≤ k ∧ (rest.drop k).head? = some '\n' then some (k + 2) else none
  | .dashes, '\n' :: rest =>
    let k := countLeading '-' rest
    if 3 ≤ k ∧ (rest.drop k).head? = some '\n' then some (k + 2) else none
  | .underscores, '\n' :: rest =>
    let k := countLeading '_' rest
    if 3 ≤ k ∧ (rest.drop k).head? = some '\n' then some (k + 2) else none
  | .blank, '\n' :: '\n' :: _ => some 2
  | .newline, '\n' :: _ => some 1
  | .space, ' ' :: _ => some 1
  | _, _ => none

/-- re.search: does the pattern match at some position of the text. -/
def searchSep (s : MdSep) : List Char → Bool
  | [] => false
  | c :: rest => (matchSepAt s (c :: rest)).isSome || searchSep s rest

/-- Scanner for re.split with the separator in a capture group and
keep_separator=True: each matched separator is glued onto the start of the
following piece.  The skip counter carries the remaining characters of a
matched separator, which are copied without being re-scanned (the regex
engine resumes after the end of a match). -/
def splitKeepAux (s : MdSep) : List Char → Nat → List Char → List (List Char)
  | [], _, acc => [acc.reverse]
  | c :: rest, skip + 1, acc => splitKeepAux s rest skip (c :: acc)
  | c :: rest, 0, acc =>
    match matchSepAt s (c :: rest) with
    | some n => acc.reverse :: splitKeepAux s rest (n - 1) [c]
    | none => splitKeepAux s rest 0 (c :: acc)

def splitKeep (s : MdSep) (text : List Char) : List (List Char) :=
  splitKeepAux s text 0 []

/-- The empty separator: list(text), single-character pieces. -/
def charPieces (text : List Char) : List (List Char) :=
  text.map (fun c => [c])

/-! ### TextSplitter._merge_splits (separator is empty, keep_separator) -/

def sumLens (l : List (List Char)) : Nat := (l.map List.length).sum

/-- TextSplitter._join_docs with the empty joiner: concatenate, strip, and
drop the result when it is empty. -/
def joinDocs (docs : List (List Char)) : Option (List Char) :=
  let text := pyStrip docs.flatten
  if text = [] then none else some text

/-- The while-loop of _merge_splits that pops leading splits from the
current document until the retained tail fits within the overlap and the
next split can be added without exceeding the chunk size.  The Python total
counter always equals the sum of the retained lengths because the joiner is
empty, so it is computed rather than threaded. -/
def popOverlap (cs ov dlen : Nat) : List (List Char) → List (List Char)
  | [] => []
  | d :: ds =>
    if sumLens (d :: ds) > ov ∨ (sumLens (d :: ds) + dlen > cs ∧ 0 < sumLens (d :: ds)) then
      popOverlap cs ov dlen ds
    else d :: ds

/-- The main loop of TextSplitter._merge_splits: accumulate splits into the
current document, flushing (and retaining an overlap tail) whenever the next
split would push the total past the chunk size. -/
def mergeGo (cs ov : Nat) : List (List Char) → List (List Char) → List (List Char)
  | [], currentDoc => (joinDocs currentDoc).toList
  | d :: rest, currentDoc =>
    if sumLens currentDoc + d.length > cs then
      match currentDoc with
      | [] => mergeGo cs ov rest [d]
      | _ :: _ =>
        (joinDocs currentDoc).toList ++
          mergeGo cs ov rest (popOverlap cs ov d.length currentDoc ++ [d])
    else mergeGo cs ov rest (currentDoc ++ [d])

def mergeSplits (cs ov : Nat) (splits : List (List Char)) : List (List Char) :=
  mergeGo cs ov splits []

/-! ### RecursiveCharacterTextSplitter._split_text -/

/-- The inner for-loop of _split_text: pieces shorter than the chunk size
are collected as good splits; when an oversized piece is hit, the pending
good splits are merged and the oversized piece is handled by the supplied
recursion (which is piece-identity when no finer separators remain). -/
def processPieces (cs ov : Nat) (recurse : List Char → List (List Char)) :
    List (List Char) → List (List Char) → List (List Char)
  | [], good => if good = [] then [] else mergeSplits cs ov good
  | p :: ps, good =>
    if p.length < cs then processPieces cs ov recurse ps (good ++ [p])
    else
      (if good = [] then [] else mergeSplits cs ov good) ++ recurse p ++
        processPieces cs ov recurse ps []

/-- RecursiveCharacterTextSplitter._split_text: pick the first separator in
the list that either is the empty separator or matches somewhere in the
text; split on it keeping separators; handle the pieces with the remaining
separators.  An empty remaining-separator list appends an oversized piece
unchanged, which is exactly what the base case returns. -/
def recursiveSplitGo (cs ov : Nat) : List MdSep → List Char → List (List Char)
  | [] => fun text => [text]
  | s :: rest => fun text =>
    if s = MdSep.empty then
      processPieces cs ov (fun p => [p]) (charPieces text) []
    else if searchSep s text then
      processPieces cs ov (recursiveSplitGo cs ov rest)
        ((splitKeep s text).filter (fun p => ¬p = [])) []
    else recursiveSplitGo cs ov rest text

def markdownSeparators : List MdSep :=
  [.header, .fence, .stars, .dashes, .underscores, .blank, .newline, .space, .empty]

/-- TranslationService.split_text: MarkdownTextSplitter with
chunk_size = max_tokens and chunk_overlap = 100 (the Python default for
max_tokens is 8292; the splitter constructor requires
chunk_overlap <= chunk_size, so the call raises unless 100 <= max_tokens). -/
def split_text (text : List Char) (max_tokens : Nat) : List (List Char) :=
  recursiveSplitGo max_tokens 100 markdownSeparators text

/-- The fixed joiner of translate_content: a newline between chunks. -/
def joinNl (chunks : List (List Char)) : List Char :=
  List.intercalate ['\n'] chunks

/-- TranslationService.translate_content with the backend (the translation
chain invocation) abstracted as a function: split into chunks, translate
each chunk in order, join with a newline. -/
def translate_content (backend : List Char → List Char) (content : List Char) : List Char :=
  joinNl ((split_text content 8292).map backend)

/-! ### Notebook model (nbformat) and the notebook adapter -/

inductive CellType
  | markdown
  | code
  | raw
deriving DecidableEq, Repr

/-- A notebook cell: cell_type, source, and the execution payload that
nbformat keeps for code cells (outputs, execution_count). -/
structure Cell where
  cell_type : CellType
  source : List Char
  outputs : List (List Char)
  execution_count : Option Nat
deriving DecidableEq, Repr

structure Notebook where
  metadata : List (String × String)
  cells : List Cell
deriving DecidableEq, Repr

/-- nbformat.v4.new_markdown_cell: a fresh markdown cell with the given
source and no execution payload. -/
def markdownCell (src : List Char) : Cell :=
  { cell_type := .markdown, source := src, outputs := [], execution_count := none }

/-- The reserved separator joined between markdown-cell sources. -/
def cellSep : List Char := "\n<<<CELL_SEPARATOR>>>\n".toList

/-- The markdown-cell sources of a cell list, in order. -/
def mdSources (cells : List Cell) : List (List Char) :=
  (cells.filter (fun c => c.cell_type = CellType.markdown)).map Cell.source

/-- TranslationService._read_notebook, pure part: extract the markdown-cell
sources in order and join them with the reserved separator.  (The side
effect of storing the notebook as _current_notebook is threaded explicitly
as the Option Notebook state below.) -/
def read_notebook_prose (nb : Notebook) : List Char :=
  List.intercalate cellSep (mdSources nb.cells)

/-- Python str.split with a fixed non-empty separator: non-overlapping
occurrences scanned left to right; the separator is dropped; always yields
one more piece than there are separator occurrences.  The skip counter
consumes the remaining characters of a matched separator. -/
def pySplitAux (sep : List Char) : List Char → Nat → List Char → List (List Char)
  | [], _, acc => [acc.reverse]
  | _ :: rest, skip + 1, acc => pySplitAux sep rest skip acc
  | c :: rest, 0, acc =>
    if sep.isPrefixOf (c :: rest) then acc.reverse :: pySplitAux sep rest (sep.length - 1) []
    else pySplitAux sep rest 0 (c :: acc)

def pySplit (sep text : List Char) : List (List Char) :=
  pySplitAux sep text 0 []

inductive TError
  | unsupportedFileType (suffix : List Char)
  | malformedContent
  | valueError (msg : String)
  | staleCellVar
deriving DecidableEq, Repr

/-- The reconstruction loop of TranslationService._write_notebook.  The
Python local new_cell is only assigned when a markdown cell still has a
translated segment (or for a non-markdown cell), and the unconditional
append at the bottom of the loop therefore re-appends the previously built
cell when the translated segments run out: prev models the current value of
new_cell, and staleCellVar models the NameError that would occur were the
append reached before any assignment. -/
def reconstruct_cells (segs : List (List Char)) :
    List Cell → Nat → Option Cell → Except TError (List Cell)
  | [], _, _ => .ok []
  | c :: cs, idx, prev =>
    if c.cell_type = CellType.markdown then
      if h : idx < segs.length then
        let nc := markdownCell segs[idx]
        (reconstruct_cells segs cs (idx + 1) (some nc)).map (fun r => nc :: r)
      else
        match prev with
        | some p => (reconstruct_cells segs cs idx (some p)).map (fun r => p :: r)
        | none => .error .staleCellVar
    else (reconstruct_cells segs cs idx (some c)).map (fun r => c :: r)

/-- TranslationService._write_notebook: raise when no notebook was read;
otherwise split the translated content on the reserved separator and walk
the stored cells, replacing markdown-cell sources in order and keeping the
other cells as they are; the new notebook keeps the stored metadata. -/
def write_notebook (stored : Option Notebook) (translated : List Char) :
    Except TError Notebook :=
  match stored with
  | none => .error (.valueError "No notebook structure found. Please read a notebook first.")
  | some nb =>
    (reconstruct_cells (pySplit cellSep translated) nb.cells 0 none).map
      (fun cs => { metadata := nb.metadata, cells := cs })

/-! ### File contents and the per-format read/write dispatch -/

/-- Parsed file contents, one constructor per structural model the adapters
handle: a markdown document as python-frontmatter parses it (metadata plus
body), plain text as open().read() returns it (rst, rstx, py), the plain
text the UnstructuredHTMLLoader extracts from HTML, and a notebook as
nbformat parses it. -/
inductive FileContent
  | mdDoc (metadata : List (String × String)) (body : List Char)
  | text (s : List Char)
  | htmlText (s : List Char)
  | nb (n : Notebook)
deriving DecidableEq, Repr

/-- TranslationService._read_file: dispatch on the lower-cased suffix; an
unregistered extension raises ValueError naming the suffix.  A content
value of the wrong shape models an unparseable file (extraction failure).
Returns the extracted prose together with the stored notebook state. -/
def readMdContent : FileContent → Except TError (List Char × Option Notebook)
  | .mdDoc _ body => .ok (body, none)
  | _ => .error .malformedContent

def readTextContent : FileContent → Except TError (List Char × Option Notebook)
  | .text s => .ok (s, none)
  | _ => .error .malformedContent

def readHtmlContent : FileContent → Except TError (List Char × Option Notebook)
  | .htmlText s => .ok (s, none)
  | _ => .error .malformedContent

def readNbContent : FileContent → Except TError (List Char × Option Notebook)
  | .nb n => .ok (read_notebook_prose n, some n)
  | _ => .error .malformedContent

def read_file (suffix : List Char) (content : FileContent) :
    Except TError (List Char × Option Notebook) :=
  if suffix = ".md".toList ∨ suffix = ".mdx".toList then readMdContent content
  else if suffix = ".rst".toList ∨ suffix = ".rstx".toList then readTextContent content
  else if suffix = ".html".toList then readHtmlContent content
  else if suffix = ".py".toList then readTextContent content
  else if suffix = ".ipynb".toList then readNbContent content
  else .error (.unsupportedFileType suffix)

/-- TranslationService._write_file: markdown output is dumped through
frontmatter.loads of the empty string, so its metadata mapping is empty;
notebooks go through _write_notebook; everything else is written as plain
text. -/
def write_file (suffix : List Char) (translated : List Char) (stored : Option Notebook) :
    Except TError FileContent :=
  if suffix = ".md".toList ∨ suffix = ".mdx".toList then
    .ok (.mdDoc [] translated)
  else if suffix = ".ipynb".toList then
    (write_notebook stored translated).map .nb
  else .ok (.text translated)

/-! ### Paths (pathlib) and process_file -/

/-- A pathlib path: an absolute flag plus the component list. -/
structure FPath where
  absolute : Bool
  components : List String
deriving DecidableEq, Repr

/-- The final path component (pathlib name; empty for an empty path). -/
def FPath.name (p : FPath) : String :=
  (p.components.getLast?).getD ""

/-- pathlib suffix of a name: from the last dot, provided that dot is
neither the first nor the last character of the name. -/
def nameSuffix (name : List Char) : List Char :=
  match name.reverse.findIdx? (fun c => c = '.') with
  | none => []
  | some j =>
    let i := name.length - 1 - j
    if 0 < i ∧ i + 1 < name.length then name.drop i else []

/-- file_path.suffix, as process_file passes it (un-lowered) to
_write_file. -/
def FPath.suffix (p : FPath) : List Char :=
  nameSuffix p.name.toList

/-- file_path.suffix.lower() as _read_file computes it. -/
def FPath.suffixLower (p : FPath) : List Char :=
  p.suffix.map Char.toLower

/-- pathlib relative_to: both paths must be of the same kind and the base's
components a prefix of the path's. -/
def relativeTo (p : FPath) (base : FPath) : Option (List String) :=
  if p.absolute = base.absolute ∧ base.components <+: p.components then
    some (p.components.drop base.components.length)
  else none

/-- The relative-path fallback chain of process_file: relative to
input_files, else relative to its parent (the current directory), else just
the file name. -/
def relativePathParts (p : FPath) : List String :=
  match relativeTo p { absolute := false, components := ["input_files"] } with
  | some r => r
  | none =>
    match relativeTo p { absolute := false, components := [] } with
    | some r => r
    | none => [p.name]

/-- TranslationService.process_file: resolve the output path under
base_output_dir / translation_folder / relative path, read and translate
the content, write it in the input's format, and return the output path.
The translation backend is abstracted as a function, and the file's parsed
content is supplied explicitly in place of the filesystem. -/
def process_file (backend : List Char → List Char) (content : FileContent)
    (file_path : FPath) (base_output_dir translation_folder : String) :
    Except TError (FPath × FileContent) := do
  let rel := relativePathParts file_path
  let output_path : FPath :=
    { absolute := false, components := base_output_dir :: translation_folder :: rel }
  let (prose, stored) ← read_file file_path.suffixLower content
  let translated := translate_content backend prose
  let out ← write_file file_path.suffix translated stored
  return (output_path, out)

/-! ### The orchestrator batch loop (app.py / pages/2_Translate_Files.py) -/

/-- One progress record of the batch loop: the success message with the
output, or the error message for that file. -/
inductive BatchResult (α β : Type)
  | success (file : α) (out : β)
  | failure (file : α) (err : TError)
deriving DecidableEq, Repr

/-- The body of the per-file try/except: a raised error is caught and
reported for that file only. -/
def processOne {α β : Type} (process : α → Except TError β) (f : α) : BatchResult α β :=
  match process f with
  | .ok o => .success f o
  | .error e => .failure f e

/-- The for-loop over selected_files, carrying the progress log: each file
is processed inside its own try/except and the loop always continues with
the next file. -/
def runBatchAux {α β : Type} (process : α → Except TError β) :
    List α → List (BatchResult α β) → List (BatchResult α β)
  | [], acc => acc
  | f :: rest, acc => runBatchAux process rest (acc ++ [processOne process f])

def runBatch {α β : Type} (process : α → Except TError β) (files : List α) :
    List (BatchResult α β) :=
  runBatchAux process files []

/-! ### Basic lemmas about the helpers -/

lemma sumLens_cons (d : List Char) (l : List (List Char)) :
    sumLens (d :: l) = d.length + sumLens l := by
  simp [sumLens]

lemma sumLens_append (a b : List (List Char)) :
    sumLens (a ++ b) = sumLens a + sumLens b := by
  simp [sumLens]

lemma flatten_length_eq_sumLens (l : List (List Char)) :
    l.flatten.length = sumLens l := by
  induction l with
  | nil => simp [sumLens]
  | cons d t ih => simp [sumLens_cons, ih]

lemma length_le_flatten {α : Type} {p : List α} :
    ∀ {l : List (List α)}, p ∈ l → p.length ≤ l.flatten.length := by
  intro l h
  induction l with
  | nil => cases h
  | cons a as ih =>
    rcases List.mem_cons.mp h with rfl | h2
    · simp
    · have := ih h2
      simp only [List.flatten_cons, List.length_append]
      omega

lemma pyStrip_length_le (t : List Char) : (pyStrip t).length ≤ t.length := by
  have h1 : (t.dropWhile pyWhitespace).length ≤ t.length :=
    (List.dropWhile_sublist _).length_le
  have h2 : ((t.dropWhile pyWhitespace).reverse.dropWhile pyWhitespace).length ≤
      (t.dropWhile pyWhitespace).reverse.length :=
    (List.dropWhile_sublist _).length_le
  simp only [pyStrip, List.length_reverse]
  simp only [List.length_reverse] at h2
  omega

lemma drop_eq_cons {α : Type} :
    ∀ (l : List α) (i : Nat) (a : α) (t : List α), l.drop i = a :: t →
      ∃ h : i < l.length, l[i] = a ∧ l.drop (i + 1) = t := by
  intro l
  induction l with
  | nil => intro i a t h; simp at h
  | cons x xs ih =>
    intro i a t h
    cases i with
    | zero =>
      simp only [List.drop_zero] at h
      cases h
      exact ⟨by simp, by simp, by simp⟩
    | succ j =>
      simp only [List.drop_succ_cons] at h
      obtain ⟨hj, hget, hdrop⟩ := ih j a t h
      exact ⟨by simpa using Nat.succ_lt_succ hj, by simpa using hget, by simpa using hdrop⟩

/-! ### Concatenation facts for the splitting scanners -/

lemma splitKeepAux_flatten (s : MdSep) :
    ∀ (text : List Char) (skip : Nat) (acc : List Char),
      (splitKeepAux s text skip acc).flatten = acc.reverse ++ text := by
  intro text
  induction text with
  | nil => intro skip acc; simp [splitKeepAux]
  | cons c rest ih =>
    intro skip acc
    cases skip with
    | succ k =>
      rw [splitKeepAux, ih k (c :: acc)]
      simp
    | zero =>
      cases hm : matchSepAt s (c :: rest) with
      | some n =>
        simp only [splitKeepAux, hm, List.flatten_cons, ih (n - 1) [c]]
        simp
      | none =>
        simp only [splitKeepAux, hm, ih 0 (c :: acc)]
        simp

lemma splitKeep_flatten (s : MdSep) (text : List Char) :
    (splitKeep s text).flatten = text := by
  simpa using splitKeepAux_flatten s text 0 []

lemma filter_ne_nil_flatten (l : List (List Char)) :
    (l.filter (fun p => ¬p = [])).flatten = l.flatten := by
  induction l with
  | nil => rfl
  | cons a as ih =>
    by_cases ha : a = []
    · subst ha; simpa [List.filter] using ih
    · simp only [List.filter, decide_not] at ih ⊢
      simp [ha, ih]

lemma charPieces_flatten (text : List Char) : (charPieces text).flatten = text := by
  induction text with
  | nil => rfl
  | cons c rest ih => simpa [charPieces] using ih

/-! ### Lemmas about _merge_splits -/

lemma joinDocs_some_length {docs : List (List Char)} {t : List Char}
    (h : joinDocs docs = some t) : t.length ≤ sumLens docs := by
  simp only [joinDocs] at h
  split at h
  · exact absurd h (by simp)
  · cases h
    calc (pyStrip docs.flatten).length ≤ docs.flatten.length := pyStrip_length_le _
      _ = sumLens docs := flatten_length_eq_sumLens docs

lemma joinDocs_some_ne_nil {docs : List (List Char)} {t : List Char}
    (h : joinDocs docs = some t) : t ≠ [] := by
  simp only [joinDocs] at h
  split at h
  · exact absurd h (by simp)
  · cases h; assumption

lemma popOverlap_post (cs ov dlen : Nat) :
    ∀ doc : List (List Char), popOverlap cs ov dlen doc = [] ∨
      (sumLens (popOverlap cs ov dlen doc) ≤ ov ∧
        (sumLens (popOverlap cs ov dlen doc) + dlen ≤ cs ∨
          sumLens (popOverlap cs ov dlen doc) = 0)) := by
  intro doc
  induction doc with
  | nil => left; rfl
  | cons d ds ih =>
    by_cases hc : sumLens (d :: ds) > ov ∨ (sumLens (d :: ds) + dlen > cs ∧ 0 < sumLens (d :: ds))
    · simpa [popOverlap, hc] using ih
    · right
      simp only [popOverlap, if_neg hc]
      omega

lemma mergeGo_bound (cs ov : Nat) :
    ∀ (splits currentDoc : List (List Char)),
      (∀ d ∈ splits, d.length < cs) → sumLens currentDoc ≤ cs →
      ∀ c ∈ mergeGo cs ov splits currentDoc, c.length ≤ cs := by
  intro splits
  induction splits with
  | nil =>
    intro cur _ hcur c hc
    simp only [mergeGo] at hc
    cases hj : joinDocs cur with
    | none => simp [hj] at hc
    | some t =>
      simp [hj] at hc
      subst hc
      exact le_trans (joinDocs_some_length hj) hcur
  | cons d rest ih =>
    intro cur hs hcur c hc
    have hd : d.length < cs := hs d (by simp)
    have hrest : ∀ x ∈ rest, x.length < cs := fun x hx => hs x (by simp [hx])
    by_cases hflush : sumLens cur + d.length > cs
    · cases cur with
      | nil =>
        simp only [mergeGo, if_pos hflush] at hc
        exact ih [d] hrest (by simp [sumLens_cons, sumLens]; omega) c hc
      | cons e es =>
        simp only [mergeGo, if_pos hflush] at hc
        rcases List.mem_append.mp hc with hc1 | hc2
        · cases hj : joinDocs (e :: es) with
          | none => simp [hj] at hc1
          | some t =>
            simp [hj] at hc1
            subst hc1
            exact le_trans (joinDocs_some_length hj) hcur
        · refine ih _ hrest ?_ c hc2
          rw [sumLens_append]
          have hone : sumLens [d] = d.length := by simp [sumLens]
          rcases popOverlap_post cs ov d.length (e :: es) with hp | ⟨hp1, hp2⟩
          · rw [hp]; simp [sumLens]; omega
          · omega
    · simp only [mergeGo, if_neg hflush] at hc
      refine ih _ hrest ?_ c hc
      rw [sumLens_append]
      have hone : sumLens [d] = d.length := by simp [sumLens]
      omega

lemma mergeGo_all_fits (cs ov : Nat) :
    ∀ (splits currentDoc : List (List Char)),
      sumLens currentDoc + sumLens splits ≤ cs →
      mergeGo cs ov splits currentDoc = (joinDocs (currentDoc ++ splits)).toList := by
  intro splits
  induction splits with
  | nil => intro cur _; simp [mergeGo]
  | cons d rest ih =>
    intro cur hle
    rw [sumLens_cons] at hle
    have hnoflush : ¬ sumLens cur + d.length > cs := by omega
    have happ : sumLens (cur ++ [d]) = sumLens cur + d.length := by
      rw [sumLens_append]; simp [sumLens]
    simp only [mergeGo, if_neg hnoflush]
    rw [ih (cur ++ [d]) (by omega)]
    simp

lemma mergeGo_ne_nil (cs ov : Nat) :
    ∀ (splits currentDoc : List (List Char)),
      ∀ c ∈ mergeGo cs ov splits currentDoc, c ≠ [] := by
  intro splits
  induction splits with
  | nil =>
    intro cur c hc
    simp only [mergeGo] at hc
    cases hj : joinDocs cur with
    | none => simp [hj] at hc
    | some t => simp [hj] at hc; subst hc; exact joinDocs_some_ne_nil hj
  | cons d rest ih =>
    intro cur c hc
    by_cases hflush : sumLens cur + d.length > cs
    · cases cur with
      | nil =>
        simp only [mergeGo, if_pos hflush] at hc
        exact ih [d] c hc
      | cons e es =>
        simp only [mergeGo, if_pos hflush] at hc
        rcases List.mem_append.mp hc with hc1 | hc2
        · cases hj : joinDocs (e :: es) with
          | none => simp [hj] at hc1
          | some t => simp [hj] at hc1; subst hc1; exact joinDocs_some_ne_nil hj
        · exact ih _ c hc2
    · simp only [mergeGo, if_neg hflush] at hc
      exact ih _ c hc

/-! ### Lemmas about _split_text -/

lemma processPieces_all_good (cs ov : Nat) (recurse : List Char → List (List Char)) :
    ∀ (pieces good : List (List Char)), (∀ p ∈ pieces, p.length < cs) →
      processPieces cs ov recurse pieces good =
        if good ++ pieces = [] then [] else mergeSplits cs ov (good ++ pieces) := by
  intro pieces
  induction pieces with
  | nil => intro good _; simp [processPieces]
  | cons p ps ih =>
    intro good hall
    have hp : p.length < cs := hall p (by simp)
    rw [processPieces, if_pos hp, ih (good ++ [p]) (fun x hx => hall x (by simp [hx]))]
    simp

lemma processPieces_bound (cs ov : Nat) (recurse : List Char → List (List Char)) :
    ∀ (pieces good : List (List Char)), (∀ p ∈ good, p.length < cs) →
      (∀ p ∈ pieces, cs ≤ p.length → ∀ c ∈ recurse p, c.length ≤ cs) →
      ∀ c ∈ processPieces cs ov recurse pieces good, c.length ≤ cs := by
  intro pieces
  induction pieces with
  | nil =>
    intro good hgood _ c hc
    rw [processPieces] at hc
    split at hc
    · cases hc
    · exact mergeGo_bound cs ov good [] hgood (by simp [sumLens]) c hc
  | cons p ps ih =>
    intro good hgood hrec c hc
    have hrecps : ∀ x ∈ ps, cs ≤ x.length → ∀ y ∈ recurse x, y.length ≤ cs :=
      fun x hx => hrec x (by simp [hx])
    by_cases hp : p.length < cs
    · rw [processPieces, if_pos hp] at hc
      refine ih (good ++ [p]) ?_ hrecps c hc
      intro x hx
      rcases List.mem_append.mp hx with h1 | h2
      · exact hgood x h1
      · simp at h2; subst h2; exact hp
    · rw [processPieces, if_neg hp] at hc
      rcases List.mem_append.mp hc with hc1 | hc2
      · rcases List.mem_append.mp hc1 with hm | hr
        · split at hm
          · cases hm
          · exact mergeGo_bound cs ov good [] hgood (by simp [sumLens]) c hm
        · exact hrec p (by simp) (by omega) c hr
      · exact ih [] (by simp) hrecps c hc2

lemma processPieces_ne_nil (cs ov : Nat) (recurse : List Char → List (List Char)) :
    ∀ (pieces good : List (List Char)),
      (∀ p ∈ pieces, cs ≤ p.length → ∀ c ∈ recurse p, c ≠ []) →
      ∀ c ∈ processPieces cs ov recurse pieces good, c ≠ [] := by
  intro pieces
  induction pieces with
  | nil =>
    intro good _ c hc
    rw [processPieces] at hc
    split at hc
    · cases hc
    · exact mergeGo_ne_nil cs ov good [] c hc
  | cons p ps ih =>
    intro good hrec c hc
    have hrecps : ∀ x ∈ ps, cs ≤ x.length → ∀ y ∈ recurse x, y ≠ [] :=
      fun x hx => hrec x (by simp [hx])
    by_cases hp : p.length < cs
    · rw [processPieces, if_pos hp] at hc
      exact ih (good ++ [p]) hrecps c hc
    · rw [processPieces, if_neg hp] at hc
      rcases List.mem_append.mp hc with hc1 | hc2
      · rcases List.mem_append.mp hc1 with hm | hr
        · split at hm
          · cases hm
          · exact mergeGo_ne_nil cs ov good [] c hm
        · exact hrec p (by simp) (by omega) c hr
      · exact ih [] hrecps c hc2

/-- The separator list always ends with the empty separator (true of the
markdown separator list and of every suffix _split_text recurses into). -/
def endsEmpty (seps : List MdSep) : Prop :=
  seps.getLast? = some MdSep.empty

lemma endsEmpty_tail {s : MdSep} {rest : List MdSep}
    (h : endsEmpty (s :: rest)) (hs : ¬s = MdSep.empty) : rest ≠ [] ∧ endsEmpty rest := by
  cases rest with
  | nil => simp [endsEmpty] at h; exact absurd h hs
  | cons r rs =>
    refine ⟨by simp, ?_⟩
    simpa [endsEmpty, List.getLast?_cons_cons] using h

lemma recursiveSplitGo_nil_text (cs ov : Nat) :
    ∀ seps : List MdSep, endsEmpty seps → recursiveSplitGo cs ov seps [] = [] := by
  intro seps
  induction seps with
  | nil => intro h; simp [endsEmpty] at h
  | cons s rest ih =>
    intro h
    by_cases hs : s = MdSep.empty
    · subst hs
      simp [recursiveSplitGo, charPieces, processPieces]
    · have hsearch : searchSep s [] = false := rfl
      obtain ⟨-, hrest⟩ := endsEmpty_tail h hs
      simp [recursiveSplitGo, hs, hsearch, ih hrest]

lemma recursiveSplitGo_single (cs ov : Nat) :
    ∀ seps : List MdSep, endsEmpty seps → ∀ text : List Char,
      text ≠ [] → pyStrip text = text → text.length < cs →
      recursiveSplitGo cs ov seps text = [text] := by
  intro seps
  induction seps with
  | nil => intro h; simp [endsEmpty] at h
  | cons s rest ih =>
    intro h text hne hstrip hlen
    have hjoin : ∀ pieces : List (List Char), pieces.flatten = text →
        (∀ p ∈ pieces, p.length < cs) →
        processPieces cs ov (fun p => [p]) pieces [] = [text] ∧
        processPieces cs ov (recursiveSplitGo cs ov rest) pieces [] = [text] := by
      intro pieces hflat hall
      have hsum : sumLens pieces = text.length := by
        rw [← flatten_length_eq_sumLens, hflat]
      have hne' : pieces ≠ [] := by
        intro hnil; subst hnil; simp at hflat; exact hne hflat
      have hmerge : mergeSplits cs ov pieces = [text] := by
        have h0 : sumLens ([] : List (List Char)) = 0 := rfl
        rw [mergeSplits, mergeGo_all_fits cs ov pieces [] (by omega)]
        simp only [List.nil_append, joinDocs, hflat, hstrip]
        simp [hne]
      constructor
      · rw [processPieces_all_good cs ov _ pieces [] hall]
        simpa [hne'] using hmerge
      · rw [processPieces_all_good cs ov _ pieces [] hall]
        simpa [hne'] using hmerge
    by_cases hs : s = MdSep.empty
    · subst hs
      simp only [recursiveSplitGo]
      rw [if_pos trivial]
      refine (hjoin (charPieces text) (charPieces_flatten text) ?_).1
      intro p hp
      simp only [charPieces, List.mem_map] at hp
      obtain ⟨c, -, rfl⟩ := hp
      have : 1 ≤ text.length := by
        cases text with
        | nil => exact absurd rfl hne
        | cons a b => simp
      simpa using by omega
    · simp only [recursiveSplitGo]
      rw [if_neg hs]
      by_cases hsearch : searchSep s text = true
      · rw [if_pos hsearch]
        have hflat : ((splitKeep s text).filter (fun p => ¬p = [])).flatten = text := by
          rw [filter_ne_nil_flatten, splitKeep_flatten]
        refine (hjoin _ hflat ?_).2
        intro p hp
        have := length_le_flatten hp
        rw [hflat] at this
        omega
      · rw [if_neg hsearch]
        obtain ⟨-, hrest⟩ := endsEmpty_tail h hs
        exact ih hrest text hne hstrip hlen

lemma recursiveSplitGo_bound (cs ov : Nat) (hcs : 2 ≤ cs) :
    ∀ seps : List MdSep, endsEmpty seps → ∀ (text : List Char),
      ∀ c ∈ recursiveSplitGo cs ov seps text, c.length ≤ cs := by
  intro seps
  induction seps with
  | nil => intro h; simp [endsEmpty] at h
  | cons s rest ih =>
    intro h text c hc
    by_cases hs : s = MdSep.empty
    · subst hs
      simp only [recursiveSplitGo] at hc
      rw [if_pos trivial] at hc
      refine processPieces_bound cs ov _ (charPieces text) [] (by simp) ?_ c hc
      intro p hp hple
      simp only [charPieces, List.mem_map] at hp
      obtain ⟨x, -, rfl⟩ := hp
      simp at hple
      omega
    · simp only [recursiveSplitGo] at hc
      rw [if_neg hs] at hc
      obtain ⟨-, hrest⟩ := endsEmpty_tail h hs
      by_cases hsearch : searchSep s text = true
      · rw [if_pos hsearch] at hc
        refine processPieces_bound cs ov _ _ [] (by simp) ?_ c hc
        intro p hp hple y hy
        exact ih hrest p y hy
      · rw [if_neg hsearch] at hc
        exact ih hrest text c hc

lemma recursiveSplitGo_ne_nil (cs ov : Nat) :
    ∀ seps : List MdSep, endsEmpty seps → ∀ (text : List Char),
      ∀ c ∈ recursiveSplitGo cs ov seps text, c ≠ [] := by
  intro seps
  induction seps with
  | nil => intro h; simp [endsEmpty] at h
  | cons s rest ih =>
    intro h text c hc
    by_cases hs : s = MdSep.empty
    · subst hs
      simp only [recursiveSplitGo] at hc
      rw [if_pos trivial] at hc
      refine processPieces_ne_nil cs ov _ (charPieces text) [] ?_ c hc
      intro p hp hple y hy
      simp only [charPieces, List.mem_map] at hp
      obtain ⟨x, -, rfl⟩ := hp
      simp at hy
      subst hy
      simp
    · simp only [recursiveSplitGo] at hc
      rw [if_neg hs] at hc
      obtain ⟨-, hrest⟩ := endsEmpty_tail h hs
      by_cases hsearch : searchSep s text = true
      · rw [if_pos hsearch] at hc
        refine processPieces_ne_nil cs ov _ _ [] ?_ c hc
        intro p hp hple y hy
        exact ih hrest p y hy
      · rw [if_neg hsearch] at hc
        exact ih hrest text c hc

lemma markdownSeparators_endsEmpty : endsEmpty markdownSeparators := by
  simp [endsEmpty, markdownSeparators]

/-- split_text on nonempty already-stripped text that fits in one chunk is
the identity chunking. -/
lemma split_text_single {text : List Char} {ms : Nat}
    (hne : text ≠ []) (hstrip : pyStrip text = text) (hlen : text.length < ms) :
    split_text text ms = [text] :=
  recursiveSplitGo_single ms 100 markdownSeparators markdownSeparators_endsEmpty
    text hne hstrip hlen

/-! ### Lemmas about the notebook adapter -/

lemma except_map_ok {e a b : Type} (f : a → b) (x : a) :
    Except.map f (Except.ok x : Except e a) = Except.ok (f x) := rfl

lemma pySplitAux_ne_nil (sep : List Char) :
    ∀ (text : List Char) (skip : Nat) (acc : List Char),
      pySplitAux sep text skip acc ≠ [] := by
  intro text
  induction text with
  | nil => intro skip acc; simp [pySplitAux]
  | cons c rest ih =>
    intro skip acc
    cases skip with
    | succ k => rw [pySplitAux]; exact ih k acc
    | zero =>
      by_cases hp : sep.isPrefixOf (c :: rest)
      · simp [pySplitAux, hp]
      · simp only [pySplitAux, if_neg hp]
        exact ih 0 (c :: acc)

lemma pySplit_length_pos (sep text : List Char) : 0 < (pySplit sep text).length :=
  List.length_pos.mpr (pySplitAux_ne_nil sep text 0 [])

/-- The per-cell replacement _write_notebook performs when each markdown
cell receives its own translated segment: markdown cells are rebuilt as
fresh markdown cells around the segment, other cells are kept. -/
def replaceMd (c : Cell) : Cell :=
  if c.cell_type = CellType.markdown then markdownCell c.source else c

lemma reconstruct_cells_ok (segs : List (List Char)) :
    ∀ (cells : List Cell) (idx : Nat) (prev : Option Cell),
      (prev.isSome ∨ idx < segs.length) →
      ∃ out, reconstruct_cells segs cells idx prev = .ok out ∧ out.length = cells.length := by
  intro cells
  induction cells with
  | nil => intro idx prev _; exact ⟨[], rfl, rfl⟩
  | cons c cs ih =>
    intro idx prev hinv
    by_cases hmd : c.cell_type = CellType.markdown
    · by_cases hidx : idx < segs.length
      · obtain ⟨out, hout, hlen⟩ := ih (idx + 1) (some (markdownCell segs[idx])) (Or.inl rfl)
        refine ⟨markdownCell segs[idx] :: out, ?_, by simp [hlen]⟩
        simp [reconstruct_cells, hmd, hidx, hout, except_map_ok]
      · rcases hinv with hprev | hidx2
        · match prev, hprev with
          | some p, _ =>
            obtain ⟨out, hout, hlen⟩ := ih idx (some p) (Or.inl rfl)
            refine ⟨p :: out, ?_, by simp [hlen]⟩
            simp [reconstruct_cells, hmd, hidx, hout, except_map_ok]
        · exact absurd hidx2 hidx
    · obtain ⟨out, hout, hlen⟩ := ih idx (some c) (Or.inl rfl)
      refine ⟨c :: out, ?_, by simp [hlen]⟩
      simp [reconstruct_cells, hmd, hout, except_map_ok]

lemma mdSources_cons_markdown {c : Cell} (cs : List Cell)
    (h : c.cell_type = CellType.markdown) :
    mdSources (c :: cs) = c.source :: mdSources cs := by
  simp [mdSources, List.filter, h]

lemma mdSources_cons_other {c : Cell} (cs : List Cell)
    (h : ¬c.cell_type = CellType.markdown) :
    mdSources (c :: cs) = mdSources cs := by
  simp [mdSources, List.filter, h]

/-- When the translated segments line up exactly with the markdown-cell
sources (from position idx on), the reconstruction loop rebuilds every
markdown cell around its own segment and keeps every other cell. -/
lemma reconstruct_cells_exact (segs : List (List Char)) :
    ∀ (cells : List Cell) (idx : Nat) (prev : Option Cell),
      mdSources cells = segs.drop idx →
      reconstruct_cells segs cells idx prev = .ok (cells.map replaceMd) := by
  intro cells
  induction cells with
  | nil => intro idx prev _; rfl
  | cons c cs ih =>
    intro idx prev hsrc
    by_cases hmd : c.cell_type = CellType.markdown
    · rw [mdSources_cons_markdown cs hmd] at hsrc
      obtain ⟨hidx, hget, hdrop⟩ := drop_eq_cons segs idx c.source (mdSources cs) hsrc.symm
      have hrec := ih (idx + 1) (some (markdownCell segs[idx])) (by rw [hdrop])
      rw [hget] at hrec
      simp [reconstruct_cells, hmd, hidx, hrec, replaceMd, hget, except_map_ok]
    · rw [mdSources_cons_other cs hmd] at hsrc
      have hrec := ih idx (some c) hsrc
      simp [reconstruct_cells, hmd, hrec, replaceMd, except_map_ok]

/-- A cell list with no markdown cells is reconstructed unchanged,
whatever the segments are. -/
lemma reconstruct_cells_no_md (segs : List (List Char)) :
    ∀ (cells : List Cell) (idx : Nat) (prev : Option Cell),
      (∀ c ∈ cells, ¬c.cell_type = CellType.markdown) →
      reconstruct_cells segs cells idx prev = .ok cells := by
  intro cells
  induction cells with
  | nil => intro idx prev _; rfl
  | cons c cs ih =>
    intro idx prev hall
    have hmd : ¬c.cell_type = CellType.markdown := hall c (by simp)
    have hrec := ih idx (some c) (fun x hx => hall x (by simp [hx]))
    simp [reconstruct_cells, hmd, hrec, except_map_ok]

/-- C10 helper: _write_notebook on a stored notebook always succeeds (the
Python split always yields at least one segment, so the loop variable is
assigned before its first use) and the output has as many cells as the
stored notebook. -/
lemma write_notebook_some (nb : Notebook) (translated : List Char) :
    ∃ out, write_notebook (some nb) translated = .ok out ∧
      out.cells.length = nb.cells.length := by
  obtain ⟨cellsOut, hok, hlen⟩ := reconstruct_cells_ok (pySplit cellSep translated)
    nb.cells 0 none (Or.inr (pySplit_length_pos cellSep translated))
  exact ⟨{ metadata := nb.metadata, cells := cellsOut },
    by simp [write_notebook, hok, except_map_ok], hlen⟩

/-! ### The batch loop characterisation -/

lemma runBatchAux_eq {α β : Type} (process : α → Except TError β) :
    ∀ (files : List α) (acc : List (BatchResult α β)),
      runBatchAux process files acc = acc ++ files.map (processOne process) := by
  intro files
  induction files with
  | nil => intro acc; simp [runBatchAux]
  | cons f rest ih =>
    intro acc
    rw [runBatchAux, ih]
    simp

/-! ### Concrete fixtures shared by the claim theorems -/

/-- A representative code cell carrying outputs and an execution count. -/
def exCodeCell : Cell :=
  { cell_type := .code, source := "print(1)".toList,
    outputs := ["out1".toList], execution_count := some 1 }

/-- Notebook whose single markdown cell carries trailing whitespace. -/
def exNbC3 : Notebook := { metadata := [], cells := [markdownCell "Hi ".toList, exCodeCell] }

/-- Notebook with two markdown cells, for the segment-count mismatch. -/
def exNbC2 : Notebook :=
  { metadata := [], cells := [markdownCell "A".toList, markdownCell "B".toList] }

/-- Well-behaved notebook for the round-trip witness. -/
def exNbW : Notebook :=
  { metadata := [("kernel", "python3")], cells := [markdownCell "Hello".toList, exCodeCell] }

/-- process_file with an identity backend, specialised to identity
translation as used by the round-trip properties: extraction, chunking,
identity translation of every chunk, newline join, reconstruction. -/
def identity_pipeline (nb : Notebook) : Except TError Notebook :=
  write_notebook (some nb) (translate_content (fun s => s) (read_notebook_prose nb))

/-- A 30-character word of one repeated letter. -/
def w30 (c : Char) : List Char := List.replicate 30 c

/-- Two 60-character paragraphs separated by a blank line. -/
def paraTwo : List Char :=
  List.replicate 60 'a' ++ '\n' :: '\n' :: List.replicate 60 'b'

/-- Five 30-character words separated by single spaces (154 characters). -/
def wordFive : List Char :=
  w30 'a' ++ [' '] ++ w30 'b' ++ [' '] ++ w30 'c' ++ [' '] ++ w30 'd' ++ [' '] ++ w30 'e'

/-! ### Claim theorems -/

/-- C1 (code_bug evaluation): processing a Markdown document that carries
front-matter metadata through process_file with an identity backend writes
an output document whose front-matter metadata is empty — _write_file
rebuilds the document from frontmatter.loads of the empty string, so the
input metadata (title: X) does not survive, contradicting the claim that
front-matter is preserved unchanged. -/
theorem c1_frontmatter_discarded :
    process_file (fun s => s) (.mdDoc [("title", "X")] "Hello".toList)
        { absolute := false, components := ["input_files", "doc.md"] } "translations" "b1" =
      .ok ({ absolute := false, components := ["translations", "b1", "doc.md"] },
        .mdDoc [] "Hello".toList) ∧
    ¬([] : List (String × String)) = [("title", "X")] := by
  exact ⟨rfl, by decide⟩

/-- C2 (code_bug evaluation): a notebook with two markdown cells receives a
translated content of a single segment (no separator occurrence), yet
_write_notebook does not fail: it writes a two-cell notebook in which the
single translated segment is duplicated into both markdown cells, because
the loop re-appends the previously assigned new_cell when the translated
segments run out.  The claimed ReconstructionError does not exist in the
code. -/
theorem c2_mismatch_writes_duplicate_notebook :
    (pySplit cellSep "X".toList).length = 1 ∧
    (mdSources exNbC2.cells).length = 2 ∧
    write_notebook (some exNbC2) "X".toList =
      .ok { metadata := [],
            cells := [markdownCell "X".toList, markdownCell "X".toList] } := by
  exact ⟨by decide, by decide, rfl⟩

/-- C6: the orchestrator loop processes every file of the batch inside its
own try/except, so the result list is exactly the per-file outcomes in
order — one file's failure is recorded for that file alone and every
remaining file is still attempted, whatever the per-file process function
returns or raises. -/
theorem c6_batch_isolation {α β : Type} (process : α → Except TError β) (files : List α) :
    runBatch process files = files.map (processOne process) ∧
    (runBatch process files).length = files.length := by
  have h : runBatch process files = files.map (processOne process) := by
    show runBatchAux process files [] = _
    simpa using runBatchAux_eq process files []
  exact ⟨h, by rw [h, List.length_map]⟩

/-- C7: every chunk produced by split_text has size at most max_size (the
exception for an oversized indivisible paragraph never fires, because the
splitter falls back to ever finer separators down to single characters).
The hypothesis 100 <= max_size is the domain on which split_text returns at
all: the splitter constructor raises when chunk_overlap (fixed at 100)
exceeds chunk_size. -/
theorem c7_chunk_size_bound (text : List Char) (ms : Nat) (hms : 100 ≤ ms) :
    ∀ c ∈ split_text text ms, c.length ≤ ms :=
  recursiveSplitGo_bound ms 100 (by omega) markdownSeparators
    markdownSeparators_endsEmpty text

/-- C7 witness: the bound instantiated on a concrete text and bound. -/
theorem c7_chunk_size_bound_witness :
    100 ≤ 150 ∧ ∀ c ∈ split_text "Hello chunking world".toList 150, c.length ≤ 150 :=
  ⟨by decide, c7_chunk_size_bound "Hello chunking world".toList 150 (by decide)⟩

/-- C9: calling _write_notebook when no notebook has been read raises the
ValueError naming the missing notebook structure, and produces no output
notebook. -/
theorem c9_write_without_read_errors (translated : List Char) :
    write_notebook none translated =
      .error (.valueError "No notebook structure found. Please read a notebook first.") := rfl

/-- C10: for every stored notebook and translated content, _write_notebook
succeeds and its output has exactly as many cells as the stored notebook,
whether or not the translated segment count matches the markdown cell
count: the unconditional append runs once per original cell, duplicating a
previous cell or dropping extra segments as needed. -/
theorem c10_cell_count_preserved (nb : Notebook) (translated : List Char) :
    ∃ out, write_notebook (some nb) translated = .ok out ∧
      out.cells.length = nb.cells.length :=
  write_notebook_some nb translated

/-- Identity translation leaves prose unchanged whenever it is nonempty
after stripping, already stripped, and fits in one chunk; empty prose also
passes through unchanged. -/
lemma translate_content_id {prose : List Char}
    (hstrip : pyStrip prose = prose) (hlen : prose.length < 8292) :
    translate_content (fun s => s) prose = prose := by
  by_cases hne : prose = []
  · subst hne
    rw [translate_content, split_text,
      recursiveSplitGo_nil_text 8292 100 markdownSeparators markdownSeparators_endsEmpty]
    rfl
  · rw [translate_content, split_text_single hne hstrip hlen]
    simp [joinNl, List.intercalate]

/-- C3 counterexample: on a notebook whose markdown cell source is
(Hi followed by a space), the identity pipeline yields a markdown cell
whose source lost the trailing space — the chunker strips the prose — so
the markdown source is not textually equal to the input source, refuting
the claim as universally stated.  Cell counts, order and the code cell are
untouched. -/
theorem c3_counterexample :
    identity_pipeline exNbC3 =
      .ok { metadata := [], cells := [markdownCell "Hi".toList, exCodeCell] } ∧
    ¬(({ metadata := [], cells := [markdownCell "Hi".toList, exCodeCell] : Notebook }).cells.map
        Cell.source = exNbC3.cells.map Cell.source) := by
  exact ⟨rfl, by decide⟩

/-- C3 amended: for every notebook whose concatenated markdown prose is
already stripped and fits in a single chunk, and whose markdown sources are
recovered exactly when the joined prose is split again on the reserved
separator (no separator collision — the invariant the spec itself reserves),
the identity pipeline returns a notebook with exactly the same number of
cells in the same order, every non-markdown cell byte-identical, and every
markdown cell's source textually equal to the input source. -/
theorem c3_notebook_roundtrip_amended (nb : Notebook)
    (hstrip : pyStrip (read_notebook_prose nb) = read_notebook_prose nb)
    (hlen : (read_notebook_prose nb).length < 8292)
    (hsep : pySplit cellSep (read_notebook_prose nb) = mdSources nb.cells ∨
      mdSources nb.cells = []) :
    identity_pipeline nb = .ok { metadata := nb.metadata, cells := nb.cells.map replaceMd } := by
  rw [identity_pipeline, translate_content_id hstrip hlen, write_notebook]
  rcases hsep with hsep | hnomd
  · rw [hsep, reconstruct_cells_exact (mdSources nb.cells) nb.cells 0 none (by simp)]
    rfl
  · have hall : ∀ c ∈ nb.cells, ¬c.cell_type = CellType.markdown := by
      intro c hc
      have hfil : nb.cells.filter (fun c => c.cell_type = CellType.markdown) = [] :=
        List.map_eq_nil_iff.mp hnomd
      have := List.filter_eq_nil_iff.mp hfil c hc
      simpa using this
    rw [reconstruct_cells_no_md (pySplit cellSep (read_notebook_prose nb)) nb.cells 0 none hall]
    have hid : ∀ c ∈ nb.cells, replaceMd c = c := by
      intro c hc
      simp [replaceMd, hall c hc]
    have hmap : nb.cells.map replaceMd = nb.cells := by
      calc nb.cells.map replaceMd = nb.cells.map (fun c => c) := List.map_congr_left hid
        _ = nb.cells := by simp
    rw [hmap]
    rfl

/-- C3 witness: the amended round trip on a concrete notebook of one
markdown cell and one code cell. -/
theorem c3_notebook_roundtrip_witness :
    (pyStrip (read_notebook_prose exNbW) = read_notebook_prose exNbW ∧
      (read_notebook_prose exNbW).length < 8292 ∧
      pySplit cellSep (read_notebook_prose exNbW) = mdSources exNbW.cells) ∧
    identity_pipeline exNbW =
      .ok { metadata := exNbW.metadata, cells := exNbW.cells.map replaceMd } :=
  ⟨⟨by decide, by decide, by decide⟩,
    c3_notebook_roundtrip_amended exNbW (by decide) (by decide) (Or.inl (by decide))⟩

/-- C4 counterexample: joining split_text output with the newline joiner
does not reconstruct the original prose.  First, trailing whitespace is
dropped (with the default 8292 bound used by translate_content); second,
with bound 100, the blank line between two paragraphs is collapsed to the
newline joiner; third, with bound 100 a long single paragraph is split into
overlapping chunks whose words are duplicated across adjacent chunks. -/
theorem c4_counterexample :
    joinNl (split_text "Hi ".toList 8292) ≠ "Hi ".toList ∧
    joinNl (split_text paraTwo 100) ≠ paraTwo ∧
    split_text wordFive 100 =
      [w30 'a' ++ [' '] ++ w30 'b' ++ [' '] ++ w30 'c',
        w30 'b' ++ [' '] ++ w30 'c' ++ [' '] ++ w30 'd',
        w30 'c' ++ [' '] ++ w30 'd' ++ [' '] ++ w30 'e'] := by
  exact ⟨by decide, by decide, by decide⟩

/-- C4 amended: the join does reconstruct the prose exactly when the prose
is already stripped and fits within a single chunk (length below max_size,
with max_size at least the fixed overlap of 100, below which the splitter
constructor raises); and no chunk produced by split_text is ever empty. -/
theorem c4_chunk_join_amended :
    (∀ (text : List Char) (ms : Nat), 100 ≤ ms → pyStrip text = text →
      text.length < ms → joinNl (split_text text ms) = text) ∧
    (∀ (text : List Char) (ms : Nat), ∀ c ∈ split_text text ms, c ≠ []) := by
  constructor
  · intro text ms hms hstrip hlen
    by_cases hne : text = []
    · subst hne
      rw [split_text,
        recursiveSplitGo_nil_text ms 100 markdownSeparators markdownSeparators_endsEmpty]
      rfl
    · rw [split_text_single hne hstrip hlen]
      simp [joinNl, List.intercalate]
  · intro text ms c hc
    exact recursiveSplitGo_ne_nil ms 100 markdownSeparators
      markdownSeparators_endsEmpty text c hc

/-- C4 witness: the amended statement instantiated on concrete prose. -/
theorem c4_chunk_join_witness :
    (100 ≤ 150 ∧ pyStrip "Hello chunked world".toList = "Hello chunked world".toList ∧
      ("Hello chunked world".toList).length < 150) ∧
    joinNl (split_text "Hello chunked world".toList 150) = "Hello chunked world".toList ∧
    ∀ c ∈ split_text "Hello chunked world".toList 150, c ≠ [] :=
  ⟨⟨by decide, by decide, by decide⟩,
    c4_chunk_join_amended.1 "Hello chunked world".toList 150 (by decide) (by decide) (by decide),
    fun c hc => c4_chunk_join_amended.2 "Hello chunked world".toList 150 c hc⟩

/-- C5: for every input path whose lower-cased suffix is not one of the
seven registered extensions, process_file fails with the ValueError naming
that suffix — and it does so for every possible translation backend, i.e.
before and independent of any backend invocation (zero network calls). -/
theorem c5_unsupported_extension_rejected
    (backend : List Char → List Char) (content : FileContent) (p : FPath)
    (base folder : String)
    (h : p.suffixLower ∉ [".md".toList, ".mdx".toList, ".rst".toList, ".rstx".toList,
      ".html".toList, ".py".toList, ".ipynb".toList]) :
    process_file backend content p base folder =
      .error (.unsupportedFileType p.suffixLower) := by
  simp only [List.mem_cons, List.not_mem_nil, or_false, not_or] at h
  obtain ⟨h1, h2, h3, h4, h5, h6, h7⟩ := h
  have hc1 : ¬(p.suffixLower = ".md".toList ∨ p.suffixLower = ".mdx".toList) := by tauto
  have hc2 : ¬(p.suffixLower = ".rst".toList ∨ p.suffixLower = ".rstx".toList) := by tauto
  have hread : read_file p.suffixLower content =
      .error (.unsupportedFileType p.suffixLower) := by
    rw [read_file, if_neg hc1, if_neg hc2, if_neg h5, if_neg h6, if_neg h7]
  rw [process_file, hread]
  rfl

/-- C5 witness: a .docx file is rejected with the error naming .docx, for
the identity backend. -/
theorem c5_unsupported_witness :
    (FPath.suffixLower { absolute := false, components := ["input_files", "report.docx"] } =
      ".docx".toList) ∧
    process_file (fun s => s) (.text "x".toList)
        { absolute := false, components := ["input_files", "report.docx"] } "translations" "b1" =
      .error (.unsupportedFileType
        (FPath.suffixLower { absolute := false, components := ["input_files", "report.docx"] })) :=
  ⟨by decide,
    c5_unsupported_extension_rejected (fun s => s) (.text "x".toList)
      { absolute := false, components := ["input_files", "report.docx"] }
      "translations" "b1" (by decide)⟩

lemma relativePathParts_input_files (rest : List String) :
    relativePathParts { absolute := false, components := "input_files" :: rest } = rest := by
  have hpre : ["input_files"] <+: ("input_files" :: rest) := ⟨rest, rfl⟩
  simp [relativePathParts, relativeTo, hpre]

lemma getLast?_cons_of_ne_nil {α : Type} (a : α) :
    ∀ (l : List α), l ≠ [] → (a :: l).getLast? = l.getLast? := by
  intro l
  cases l with
  | nil => intro h; exact absurd rfl h
  | cons b bs => intro _; simp [List.getLast?_cons_cons]

/-- C8: for every file under the input_files root that process_file handles
successfully, the returned output path is
base_output_dir / translation_folder / relative path, mirroring the input's
relative directory structure, and the output path's (lower-cased) suffix
equals the input's, since its file name is the same. -/
theorem c8_output_path_mirrors
    (backend : List Char → List Char) (content : FileContent)
    (rest : List String) (base folder : String) (result : FPath × FileContent)
    (hrest : rest ≠ [])
    (hok : process_file backend content { absolute := false, components := "input_files" :: rest }
      base folder = .ok result) :
    result.1 = { absolute := false, components := base :: folder :: rest } ∧
    result.1.suffixLower =
      FPath.suffixLower { absolute := false, components := "input_files" :: rest } := by
  have hout : result.1 = { absolute := false, components := base :: folder :: rest } := by
    rw [process_file, relativePathParts_input_files] at hok
    cases hread : read_file
        (FPath.suffixLower { absolute := false, components := "input_files" :: rest }) content with
    | error e => rw [hread] at hok; exact absurd hok (by simp [Bind.bind, Except.bind])
    | ok pr =>
      rw [hread, show pr = (pr.1, pr.2) from rfl] at hok
      simp only [Bind.bind, Except.bind] at hok
      cases hwrite : write_file
          (FPath.suffix { absolute := false, components := "input_files" :: rest })
          (translate_content backend pr.1) pr.2 with
      | error e =>
        rw [hwrite] at hok
        exact absurd hok (by simp)
      | ok out =>
        rw [hwrite] at hok
        simp only [Pure.pure, Except.pure, Except.ok.injEq] at hok
        rw [← hok]
  refine ⟨hout, ?_⟩
  rw [hout]
  simp only [FPath.suffixLower, FPath.suffix, FPath.name]
  rw [getLast?_cons_of_ne_nil base (folder :: rest) (by simp),
    getLast?_cons_of_ne_nil folder rest hrest,
    getLast?_cons_of_ne_nil "input_files" rest hrest]

/-- C8 witness: a Markdown file two levels under input_files is written to
the mirrored path under the output root and batch folder, with the same
suffix. -/
theorem c8_output_path_witness :
    process_file (fun s => s) (.mdDoc [] "Hello".toList)
        { absolute := false, components := ["input_files", "guide", "a.md"] }
        "translations" "b1" =
      .ok ({ absolute := false, components := ["translations", "b1", "guide", "a.md"] },
        .mdDoc [] "Hello".toList) ∧
    ({ absolute := false, components := ["translations", "b1", "guide", "a.md"] } : FPath) =
      { absolute := false, components := "translations" :: "b1" :: ["guide", "a.md"] } ∧
    FPath.suffixLower
        { absolute := false, components := ["translations", "b1", "guide", "a.md"] } =
      FPath.suffixLower { absolute := false, components := "input_files" :: ["guide", "a.md"] } :=
  ⟨rfl,
    (c8_output_path_mirrors (fun s => s) (.mdDoc [] "Hello".toList) ["guide", "a.md"]
      "translations" "b1" _ (by decide) rfl).1,
    (c8_output_path_mirrors (fun s => s) (.mdDoc [] "Hello".toList) ["guide", "a.md"]
      "translations" "b1" _ (by decide) rfl).2⟩

end DocTrans
